import Mathlib

/-!
Shallow embedding of the `configextractor-py` core
(`configextractor/main.py`, `configextractor/frameworks/cape.py`) and proofs
about its discovery, dispatch and normalization behaviour.

Modelling conventions:
* Calls into dynamically loaded plugin code (validate, rule extraction,
  `extract_config`) may raise; their outcome is modelled by `ExcResult`.
  `typeError` and `exc` mirror the two `except` arms of the discovery loop
  (`except TypeError` / `except Exception`); both are caught, neither aborts.
* Python dicts are modelled as association lists with insertion-order
  preserving assignment (`insertAssoc`); Python sets of parser objects as
  duplicate-free lists (`addSet`).
* The YARA engine is opaque (spec §1): `ConfigExtractor.run_parsers` receives
  the list of `yara.match` results for the sample as an input.  A match
  carries the `parser_module` / `parser_framework` / `parser_name` metadata
  that the compiled rules embed; a missing meta key is just a string that is
  not a registry key.
* The blocklist check `regex.compile('|'.join(pats)).match(name)` is modelled
  over `RegularExpression Char`: the joined pattern is the left fold of `+`
  (alternation) and `.match` is an anchored search, i.e. acceptance of some
  prefix of `name` (`reMatchAt`).
* A candidate carries, as plain data, the outcome of every dynamic call the
  core makes on it for the run under consideration: per-framework `validate`
  and `extract_yara_from_module` outcomes, and the `extract_config` outcome
  on the sample's bytes.
-/

/-- Outcome of a call into dynamically loaded plugin code: a value, a raised
`TypeError`, or any other raised `Exception` (the two `except` arms of
`ConfigExtractor.__init__`). -/
inductive ExcResult (α : Type) where
  | ok : α → ExcResult α
  | typeError : ExcResult α
  | exc : ExcResult α
deriving DecidableEq, Repr

/-- Raw parser output (`parser.extract_config(...)` return value), an opaque
dict payload; `[]` models a falsy result (`None` or an empty dict), for which
`if result:` in `CAPE.run` adds no record. -/
abbrev Config := List (String × String)

/-- One entry of a `config['http']` network-connection list: optional
`protocol` and `uri` keys plus untouched other keys. -/
structure NetConn where
  protocol : Option String
  uri : Option String
  rest : List (String × String)
deriving DecidableEq, Repr

/-- The `config` value of a result record, in the `ExtractorModel.dict()`
shape: an `http` connection list (`config.get('http', [])`; a missing key
behaves as `[]`), an optional `family`, and opaque remaining entries. -/
structure RecConfig where
  http : List NetConn
  family : Option String
  other : List (String × String)
deriving DecidableEq, Repr

/-- A normalized per-parser result record `{author, description, config}`;
`config` is `none` when the record has no `'config'` key
(`config.get('config', {})` then yields an empty dict). -/
structure ResultRecord where
  author : String
  description : String
  config : Option RecConfig
deriving DecidableEq, Repr

/-- A candidate definition gathered from a loaded module (the module object
itself or a class it defines), together with the outcomes of every dynamic
call the core can make on it.  `name` is `member.__name__` (the short class
name, or the module's dotted name for the module object itself); `modName` is
`member.__module__`, the key used for registration. -/
structure Candidate where
  name : String
  modName : String
  vMACO : ExcResult Bool
  vMWCP : ExcResult Bool
  vCAPE : ExcResult Bool
  eMACO : ExcResult (List String)
  eMWCP : ExcResult (List String)
  eCAPE : ExcResult (List String)
  author : String
  description : Option String
  display : String
  extract_config : ExcResult Config
deriving DecidableEq, Repr

/-- `fw_class.validate(member)` outcome for the framework named `fw`
(`CAPE.validate` is `hasattr(module, 'extract_config')`; `MACO`/`MWCP` live
outside `src/`, so their outcome is candidate data). -/
def Candidate.validate (c : Candidate) : String → ExcResult Bool
  | "MACO" => c.vMACO
  | "MWCP" => c.vMWCP
  | "CAPE" => c.vCAPE
  | _ => .ok false

/-- `fw_class.extract_yara_from_module(member, yara_rule_names)` outcome for
the framework named `fw` (the implementation lives outside `src/`; `main.py`
passes the never-reassigned local `yara_rule_names` list and uses only the
returned rule list, so the outcome is candidate data).  An empty list models
a falsy return (`if not rules:` marks the parser standalone). -/
def Candidate.extract_yara (c : Candidate) : String → ExcResult (List String)
  | "MACO" => c.eMACO
  | "MWCP" => c.eMWCP
  | "CAPE" => c.eCAPE
  | _ => .ok []

/-- The fixed framework priority order: insertion order of
`FRAMEWORK_LIBRARY_MAPPING`, built from
`PARSER_FRAMEWORKS = [(MACO, ...), (MWCP, ...), (CAPE, ...)]`. -/
def fwNames : List String := ["MACO", "MWCP", "CAPE"]

/-- A blocklist entry: one compiled regex pattern. -/
abbrev BlockPattern := RegularExpression Char

/-- Python `compiled.match(s)`: the regex matches at position 0, consuming an
arbitrary prefix of `s` (anchored at the start only). -/
def reMatchAt (r : BlockPattern) (s : List Char) : Bool :=
  (List.range (s.length + 1)).any fun i => r.rmatch (s.take i)

/-- `'|'.join(patterns)` as a regex value: the left fold of alternation over
the individual patterns. -/
def joinPatterns (p : BlockPattern) (ps : List BlockPattern) : BlockPattern :=
  ps.foldl (fun a b => a + b) p

/-- The blocklist test used at both discovery time and dispatch time:
`block_regex = regex.compile('|'.join(bl)) if bl else None` followed by
`block_regex and block_regex.match(name)`.  An empty pattern list never
blocks. -/
def isBlocked (bl : List BlockPattern) (name : String) : Bool :=
  match bl with
  | [] => false
  | p :: ps => reMatchAt (joinPatterns p ps) name.data

/-- Python dict assignment `d[k] = v` on an association list: replace the
value in place if the key exists, else append. -/
def insertAssoc {α : Type} (l : List (String × α)) (k : String) (v : α) :
    List (String × α) :=
  match l with
  | [] => [(k, v)]
  | (k', v') :: rest =>
    if k' = k then (k, v) :: rest else (k', v') :: insertAssoc rest k v

/-- Python dict lookup `d.get(k)` on an association list. -/
def lookupA {α : Type} (l : List (String × α)) (k : String) : Option α :=
  match l with
  | [] => none
  | (k', v) :: rest => if k' = k then some v else lookupA rest k

/-- Python `set.add` on a duplicate-free list. -/
def addSet (l : List Candidate) (c : Candidate) : List Candidate :=
  if c ∈ l then l else l ++ [c]

/-- `standalone_parsers[fw_name].add(member)` on the
framework-name-to-parser-set mapping. -/
def addStandalone (sp : List (String × List Candidate)) (fw : String)
    (c : Candidate) : List (String × List Candidate) :=
  match sp with
  | [] => [(fw, [c])]
  | (fw', cs) :: rest =>
    if fw' = fw then (fw', addSet cs c) :: rest
    else (fw', cs) :: addStandalone rest fw c

/-- The discovery result: the `ConfigExtractor` instance state built by
`__init__` (registry `self.parsers`, the aggregated rule texts that feed
`yara.compile`, and `self.standalone_parsers`). -/
structure ConfigExtractor where
  parsers : List (String × Candidate)
  yara_rules : List String
  standalone_parsers : List (String × List Candidate)
deriving DecidableEq, Repr

/-- One iteration of the inner `for fw_name, fw_class in
self.FRAMEWORK_LIBRARY_MAPPING.items():` loop of `__init__` for candidate
`c`: the whole body sits in `try/except TypeError: pass / except Exception:
log`.  Returns the updated state and whether `break` was reached (it is the
last statement of the successful body, so an exception from rule extraction
skips it and the next framework is still tried — with the candidate already
registered). -/
def processFw (st : ConfigExtractor) (bl : List BlockPattern) (c : Candidate)
    (fw : String) : ConfigExtractor × Bool :=
  match c.validate fw with
  | .ok true =>
    if isBlocked bl c.name then (st, false)
    else
      let st1 := { st with parsers := insertAssoc st.parsers c.modName c }
      match c.extract_yara fw with
      | .ok rules =>
        if rules = [] then
          ({ st1 with
              standalone_parsers := addStandalone st1.standalone_parsers fw c },
            true)
        else ({ st1 with yara_rules := st1.yara_rules ++ rules }, true)
      | .typeError => (st1, false)
      | .exc => (st1, false)
  | .ok false => (st, false)
  | .typeError => (st, false)
  | .exc => (st, false)

/-- Processing one candidate against the frameworks in priority order,
stopping at the first framework whose body completes (`break`). -/
def processCand (bl : List BlockPattern) (c : Candidate) :
    ConfigExtractor → List String → ConfigExtractor
  | st, [] => st
  | st, fw :: rest =>
    let r := processFw st bl c fw
    if r.2 then r.1 else processCand bl c r.1 rest

/-- Processing one walked module: `importlib.import_module` failure is logged
and skipped (`except Exception ... continue`); on success the candidate list
is `[module] + [classes defined in it]` and each candidate runs through the
framework loop.  (The `ispkg` / `.setup` / non-Python-file pre-filters of the
walk are applied before this point, so the input is the post-filter module
list.) -/
def processModule (bl : List BlockPattern) (st : ConfigExtractor) :
    ExcResult (List Candidate) → ConfigExtractor
  | .ok cands => cands.foldl (fun s c => processCand bl c s fwNames) st
  | .typeError => st
  | .exc => st

/-- The discovery loop of `ConfigExtractor.__init__` over the walked modules
of the parser directories, starting from the empty registry, rule list and
standalone mapping.  (The staging-copy path-rewriting fallback of `__init__`
only renames temporary paths back to the original root and is not modelled.) -/
def discover (bl : List BlockPattern)
    (mods : List (ExcResult (List Candidate))) : ConfigExtractor :=
  mods.foldl (processModule bl)
    { parsers := [], yara_rules := [], standalone_parsers := [] }

/-- Does the framework loop of `__init__` register candidate `c` (assign
`self.parsers[c.modName] = c`) at some framework in `fws`?  Registration
happens exactly when some reached framework validates the candidate and the
blocklist does not match; the loop moves past a framework only when no
`break` occurred there. -/
def registersIn (bl : List BlockPattern) (c : Candidate) : List String → Bool
  | [] => false
  | fw :: rest =>
    match c.validate fw with
    | .ok true => if isBlocked bl c.name then registersIn bl c rest else true
    | .ok false => registersIn bl c rest
    | .typeError => registersIn bl c rest
    | .exc => registersIn bl c rest

/-- All candidates of the successfully loaded modules, in processing order. -/
def moduleCandidates : List (ExcResult (List Candidate)) → List Candidate
  | [] => []
  | .ok cs :: rest => cs ++ moduleCandidates rest
  | .typeError :: rest => moduleCandidates rest
  | .exc :: rest => moduleCandidates rest

/-- The candidates that discovery claims and registers: loaded, accepted by
some framework in priority order, and not blocked. -/
def claimedCandidates (bl : List BlockPattern)
    (mods : List (ExcResult (List Candidate))) : List Candidate :=
  (moduleCandidates mods).filter (fun c => registersIn bl c fwNames)

/-- One YARA rule match for the sample, with the metadata the compiled rules
embed (`yara_match.meta.get(...)`). -/
structure YaraMatch where
  parser_module : String
  parser_framework : String
  parser_name : String
deriving DecidableEq, Repr

/-- A framework's run batch: `parsers_to_run[fw]`, a dict from parser to its
accumulated list of `yara.Match` objects. -/
abbrev Batch := List (Candidate × List YaraMatch)

/-- `parsers_to_run`: dict from framework name to run batch. -/
abbrev Batches := List (String × Batch)

/-- `parsers_to_run[fw][p].append(m)` / `.extend(ms)` on a batch: the
defaultdict creates an empty list for an absent parser key. -/
def addToBatch (b : Batch) (p : Candidate) (ms : List YaraMatch) : Batch :=
  match b with
  | [] => [(p, ms)]
  | (p', l) :: rest =>
    if p' = p then (p', l ++ ms) :: rest else (p', l) :: addToBatch rest p ms

/-- `parsers_to_run[fw][p].extend(ms)` on the outer defaultdict. -/
def addMatchTo (bs : Batches) (fw : String) (p : Candidate)
    (ms : List YaraMatch) : Batches :=
  match bs with
  | [] => [(fw, addToBatch [] p ms)]
  | (fw', b) :: rest =>
    if fw' = fw then (fw', addToBatch b p ms) :: rest
    else (fw', b) :: addMatchTo rest fw p ms

/-- A `KeyError` escaping `run_parsers`: an unguarded
`self.parsers[parser_module]` lookup with an unknown key, or an unguarded
`self.FRAMEWORK_LIBRARY_MAPPING[framework]` lookup with an unknown framework
name. -/
inductive RunError where
  | unknownParserModule : String → RunError
  | unknownFramework : String → RunError
deriving DecidableEq, Repr

/-- The first loop of `run_parsers`: for each YARA match, resolve
`parser_module` through the registry (an unguarded dict lookup: an unknown
key raises `KeyError`, aborting the whole call), then drop the parser if the
run-time blocklist matches its `__name__`, else append the match to its
framework's batch. -/
def addMatches (reg : List (String × Candidate)) (bl : List BlockPattern) :
    Batches → List YaraMatch → Except RunError Batches
  | bs, [] => .ok bs
  | bs, m :: rest =>
    match lookupA reg m.parser_module with
    | none => .error (.unknownParserModule m.parser_module)
    | some p =>
      if isBlocked bl p.name then addMatches reg bl bs rest
      else addMatches reg bl (addMatchTo bs m.parser_framework p [m]) rest

/-- The second loop of `run_parsers`: every standalone parser joins its
framework's batch with no match context (`.extend([])`), subject to the same
run-time blocklist check on its `__name__`. -/
def addStandalones (bl : List BlockPattern) :
    Batches → List (String × List Candidate) → Batches
  | bs, [] => bs
  | bs, (fw, plist) :: rest =>
    addStandalones bl
      (plist.foldl
        (fun b p => if isBlocked bl p.name then b else addMatchTo b fw p []) bs)
      rest

/-- The batch-building phase of `run_parsers` (both loops). -/
def buildBatches (cx : ConfigExtractor) (yms : List YaraMatch)
    (bl : List BlockPattern) : Except RunError Batches :=
  match addMatches cx.parsers bl [] yms with
  | .error e => .error e
  | .ok bs => .ok (addStandalones bl bs cx.standalone_parsers)

/-- The record `CAPE.run` builds for a parser with truthy output:
`{author: parser.AUTHOR, description: parser.DESCRIPTION or "",
config: ExtractorModel(other=result, family=parser_name).dict(...)}`. -/
def mkCapeRecord (p : Candidate) (cfg : Config) : ResultRecord :=
  { author := p.author
    description := p.description.getD ""
    config := some { http := [], family := some p.display, other := cfg } }

/-- `Framework.run(sample_path, parsers)` following `CAPE.run`
(`frameworks/cape.py`): each parser of the batch runs inside its own
`try/except`; an exception is logged and the parser contributes nothing; a
truthy `extract_config` result is wrapped into a record keyed by the
parser's display name (`results.update`, so a duplicate name overwrites).
`MACO.run` / `MWCP.run` live outside `src/`; modelled from the spec (§4.1:
isolate failures per parser, wrap raw output into the canonical record
shape), they follow the same structure. -/
def fwRun (b : Batch) : List (String × ResultRecord) :=
  b.foldl
    (fun results pm =>
      match pm.1.extract_config with
      | .ok cfg =>
        if cfg = [] then results
        else insertAssoc results pm.1.display (mkCapeRecord pm.1 cfg)
      | .typeError => results
      | .exc => results) []

/-- Python `uri.startswith(protocol)`: prefix test on the characters. -/
def pyStartsWith (s p : String) : Bool := p.data.isPrefixOf s.data

/-- The per-connection step of `ConfigExtractor.finalize`:
`network_conn.setdefault('protocol', 'http')`, then if the `uri` value is
truthy (present and non-empty) and does not start with the protocol, rewrite
it to `f"{protocol}://{uri}"`. -/
def fixConn (nc : NetConn) : NetConn :=
  let protocol := nc.protocol.getD "http"
  let nc1 : NetConn := { nc with protocol := some protocol }
  match nc1.uri with
  | none => nc1
  | some u =>
    if u ≠ "" ∧ ¬ pyStartsWith u protocol then
      { nc1 with uri := some (protocol ++ "://" ++ u) }
    else nc1

/-- `finalize` on one record: every entry of `config.get('config',
{}).get('http', [])` is normalized in place; a record without a config is
untouched. -/
def finalizeRecord (r : ResultRecord) : ResultRecord :=
  match r.config with
  | none => r
  | some cfg => { r with config := some { cfg with http := cfg.http.map fixConn } }

/-- `ConfigExtractor.finalize(results)`: normalize every record of the
per-framework result mapping (`for config in results.values():`). -/
def finalize (results : List (String × ResultRecord)) :
    List (String × ResultRecord) :=
  results.map fun kv => (kv.1, finalizeRecord kv.2)

/-- Membership in `FRAMEWORK_LIBRARY_MAPPING`. -/
def fwKnown (fw : String) : Bool := fwNames.contains fw

/-- The overall result: framework name to per-parser record mapping. -/
abbrev ResultMap := List (String × List (String × ResultRecord))

/-- The final loop of `run_parsers`: for each framework with a non-empty
batch, an unguarded `FRAMEWORK_LIBRARY_MAPPING[framework]` lookup (an unknown
framework name from rule metadata raises `KeyError`), then `run`, `finalize`,
and `results[framework] = result` only when the finalized mapping is
non-empty. -/
def runFrameworks : ResultMap → Batches → Except RunError ResultMap
  | acc, [] => .ok acc
  | acc, (fw, plist) :: rest =>
    if plist = [] then runFrameworks acc rest
    else if fwKnown fw then
      let r := finalize (fwRun plist)
      runFrameworks (if r = [] then acc else insertAssoc acc fw r) rest
    else .error (.unknownFramework fw)

/-- `ConfigExtractor.run_parsers(sample, parser_blocklist)`: build the
batches from the sample's YARA matches and the standalone parsers, then run
each framework and merge non-empty results.  The method reads
`self.parsers` / `self.standalone_parsers` / `self.yara` and assigns no
instance attribute, so it is a pure function of the constructed state. -/
def runParsers (cx : ConfigExtractor) (yms : List YaraMatch)
    (bl : List BlockPattern) : Except RunError ResultMap :=
  match buildBatches cx yms bl with
  | .error e => .error e
  | .ok bs => runFrameworks [] bs

/-- A network connection with an empty-string `uri` and no `protocol`,
exercising the `if uri and ...` truthiness guard of `finalize`. -/
def ncEmpty : NetConn := { protocol := none, uri := some "", rest := [] }

/-- A result record holding `ncEmpty` in its `config.http` list. -/
def recEmpty : ResultRecord :=
  { author := "a", description := ""
    config := some { http := [ncEmpty], family := none, other := [] } }

/-- Candidate `p` is in run batch `b` (a key of the inner parser dict). -/
def inBatch (b : Batch) (p : Candidate) : Prop := p ∈ b.map Prod.fst

/-- Candidate `p` is in some framework's run batch of `bs`: it will receive
an invocation opportunity when the batches are run. -/
def inBatches (bs : Batches) (p : Candidate) : Prop :=
  ∃ fw b, (fw, b) ∈ bs ∧ inBatch b p

/-- `run_parsers` as a state transformer: the method only reads
`self.parsers` / `self.standalone_parsers` / `self.yara` and assigns no
instance attribute, so the post-state equals the pre-state. -/
def runParsersSt (cx : ConfigExtractor) (yms : List YaraMatch)
    (bl : List BlockPattern) : ConfigExtractor × Except RunError ResultMap :=
  (cx, runParsers cx yms bl)

/-- A connection entry with a bare endpoint, as in the spec's example. -/
def ncPlain : NetConn := { protocol := none, uri := some "1.2.3.4/c2", rest := [] }

/-- A record whose config holds `ncPlain`. -/
def recPlain : ResultRecord :=
  { author := "a", description := "d"
    config := some { http := [ncPlain], family := some "X", other := [] } }

/-- A MACO-claimed candidate in module `parsers.mod1`. -/
def candA : Candidate :=
  { name := "Alpha", modName := "parsers.mod1"
    vMACO := .ok true, vMWCP := .ok false, vCAPE := .ok false
    eMACO := .ok ["rule Alpha"], eMWCP := .ok [], eCAPE := .ok []
    author := "a1", description := some "d1", display := "Alpha"
    extract_config := .ok [("k", "v")] }

/-- A second MACO-claimed candidate defined in the same module as `candA`. -/
def candB : Candidate :=
  { candA with name := "Beta", display := "Beta", eMACO := .ok ["rule Beta"] }

/-- A CAPE-claimed candidate named `Evil`, the name `patEvil` blocks. -/
def candEvil : Candidate :=
  { name := "Evil", modName := "parsers.evil"
    vMACO := .ok false, vMWCP := .ok false, vCAPE := .ok true
    eMACO := .ok [], eMWCP := .ok [], eCAPE := .ok ["rule Evil"]
    author := "a2", description := none, display := "Evil"
    extract_config := .ok [("c2", "x")] }

/-- A candidate whose `extract_config` raises at run time. -/
def candBad : Candidate :=
  { candA with
    name := "Gamma", modName := "parsers.mod2", display := "Gamma"
    extract_config := .exc }

/-- A candidate whose MACO validation raises and which MWCP then claims. -/
def candVExc : Candidate :=
  { candA with
    name := "Delta", modName := "parsers.mod3", display := "Delta"
    vMACO := .exc, vMWCP := .ok true, eMWCP := .ok ["rule Delta"] }

/-- A candidate claimed by MACO whose rule extraction raises. -/
def candEExc : Candidate :=
  { candA with
    name := "Eps", modName := "parsers.mod4", display := "Eps"
    eMACO := .exc }

/-- The blocklist pattern `Evil` (literal concatenation). -/
def patEvil : BlockPattern :=
  .comp (.char 'E') (.comp (.char 'v') (.comp (.char 'i') (.char 'l')))

/-- A constructed extractor with `candA` and `candEvil` registered. -/
def cxTwo : ConfigExtractor :=
  { parsers := [("parsers.mod1", candA), ("parsers.evil", candEvil)]
    yara_rules := ["rule Alpha", "rule Evil"]
    standalone_parsers := [] }

/-- A YARA match whose metadata resolves to `candA`. -/
def ymA : YaraMatch :=
  { parser_module := "parsers.mod1", parser_framework := "MACO"
    parser_name := "Alpha" }

/-- A YARA match whose metadata resolves to `candEvil`. -/
def ymEvil : YaraMatch :=
  { parser_module := "parsers.evil", parser_framework := "CAPE"
    parser_name := "Evil" }

/-- A YARA match whose `parser_module` metadata is not a registry key. -/
def ymBad : YaraMatch :=
  { parser_module := "parsers.unknown", parser_framework := "MACO"
    parser_name := "Nope" }

theorem pyStartsWith_protocol (p u : String) :
    pyStartsWith (p ++ "://" ++ u) p = true := by
  simp only [pyStartsWith, List.isPrefixOf_iff_prefix, String.data_append]
  exact ⟨("://" : String).data ++ u.data, by simp⟩

theorem protocol_uri_ne_empty (p u : String) : (p ++ "://" ++ u) ≠ "" := by
  simp [String.ext_iff, String.data_append]

theorem fixConn_none (prot : Option String) (rest : List (String × String)) :
    fixConn ⟨prot, none, rest⟩ = ⟨some (prot.getD "http"), none, rest⟩ := rfl

theorem fixConn_some_pos (prot : Option String) (u : String)
    (rest : List (String × String)) (h1 : u ≠ "")
    (h2 : pyStartsWith u (prot.getD "http") = false) :
    fixConn ⟨prot, some u, rest⟩ =
      ⟨some (prot.getD "http"), some (prot.getD "http" ++ "://" ++ u), rest⟩ := by
  simp [fixConn, h1, h2]

theorem fixConn_some_neg (prot : Option String) (u : String)
    (rest : List (String × String))
    (h : u = "" ∨ pyStartsWith u (prot.getD "http") = true) :
    fixConn ⟨prot, some u, rest⟩ = ⟨some (prot.getD "http"), some u, rest⟩ := by
  rcases h with h | h <;> simp [fixConn, h]

theorem fixConn_idem (nc : NetConn) : fixConn (fixConn nc) = fixConn nc := by
  rcases nc with ⟨prot, uri, rest⟩
  cases uri with
  | none => rw [fixConn_none, fixConn_none]; simp
  | some u =>
    rcases eq_or_ne u "" with h1 | h1
    · subst h1
      rw [fixConn_some_neg prot "" rest (Or.inl rfl),
        fixConn_some_neg _ "" rest (Or.inl rfl)]
      simp
    · rcases Bool.eq_false_or_eq_true (pyStartsWith u (prot.getD "http")) with h2 | h2
      · rw [fixConn_some_neg prot u rest (Or.inr h2),
          fixConn_some_neg _ u rest (Or.inr (by simpa using h2))]
        simp
      · rw [fixConn_some_pos prot u rest h1 h2,
          fixConn_some_neg _ _ rest
            (Or.inr (by simpa using pyStartsWith_protocol (prot.getD "http") u))]
        simp

theorem finalizeRecord_idem (r : ResultRecord) :
    finalizeRecord (finalizeRecord r) = finalizeRecord r := by
  rcases r with ⟨a, d, cfg⟩
  cases cfg with
  | none => rfl
  | some c =>
    simp [finalizeRecord, List.map_map, Function.comp_def, fixConn_idem]

/-- C2: `finalize` is idempotent: for every results mapping of records,
applying it twice yields the same records as applying it once; in
particular an endpoint already rewritten to `protocol://endpoint` starts
with its protocol and is never prefixed a second time. -/
theorem finalize_idempotent (results : List (String × ResultRecord)) :
    finalize (finalize results) = finalize results := by
  simp [finalize, List.map_map, Function.comp_def, finalizeRecord_idem]

theorem fixConn_protocol (nc : NetConn) :
    (fixConn nc).protocol = some (nc.protocol.getD "http") := by
  rcases nc with ⟨prot, uri, rest⟩
  cases uri with
  | none => rfl
  | some u => simp only [fixConn]; split <;> rfl

theorem fixConn_rest (nc : NetConn) : (fixConn nc).rest = nc.rest := by
  rcases nc with ⟨prot, uri, rest⟩
  cases uri with
  | none => rfl
  | some u => simp only [fixConn]; split <;> rfl

/-- C5 (amended): for every record with a config, `finalize` (through
`finalizeRecord`) maps `fixConn` over the `config.http` list, and for every
entry `fixConn` defaults a missing `protocol` to `"http"`, rewrites a
present, *non-empty* `uri` that does not start with the (now-defaulted)
protocol to `protocol://uri`, and leaves the `uri` unchanged when it is
absent, empty (falsy, skipped by the `if uri and ...` guard), or already
starts with the protocol. -/
theorem finalize_http_normalization (r : ResultRecord) (cfg : RecConfig)
    (h : r.config = some cfg) :
    (finalizeRecord r).config = some { cfg with http := cfg.http.map fixConn } ∧
    ∀ nc ∈ cfg.http,
      (fixConn nc).protocol = some (nc.protocol.getD "http") ∧
      (fixConn nc).rest = nc.rest ∧
      (nc.uri = none → (fixConn nc).uri = none) ∧
      (∀ u, nc.uri = some u → u ≠ "" →
        pyStartsWith u (nc.protocol.getD "http") = false →
        (fixConn nc).uri = some (nc.protocol.getD "http" ++ "://" ++ u)) ∧
      (∀ u, nc.uri = some u →
        (u = "" ∨ pyStartsWith u (nc.protocol.getD "http") = true) →
        (fixConn nc).uri = some u) := by
  refine ⟨by simp [finalizeRecord, h], ?_⟩
  intro nc _
  refine ⟨fixConn_protocol nc, fixConn_rest nc, ?_, ?_, ?_⟩
  · intro hu
    rcases nc with ⟨prot, uri, rest⟩
    cases hu
    rw [fixConn_none]
  · intro u hu h1 h2
    rcases nc with ⟨prot, uri, rest⟩
    cases hu
    rw [fixConn_some_pos prot u rest h1 h2]
  · intro u hu hor
    rcases nc with ⟨prot, uri, rest⟩
    cases hu
    rw [fixConn_some_neg prot u rest hor]

/-- C5 counterexample: the entry `{uri: ""}` gets `protocol` defaulted to
`"http"` and its empty `uri` does not start with `"http"`, yet `finalize`
leaves the `uri` as `""` instead of rewriting it to `"http://"`: the
`if uri and not uri.startswith(...)` guard treats the falsy empty string
like a missing `uri`. -/
theorem finalize_empty_uri_cex :
    pyStartsWith "" "http" = false ∧
    finalize [("P", recEmpty)] =
      [("P", { author := "a", description := "",
               config := some
                 { http := [{ protocol := some "http", uri := some "", rest := [] }],
                   family := none, other := [] } })] ∧
    (fixConn ncEmpty).uri ≠ some ("http" ++ "://" ++ "") := by
  decide

/-- C5 witness: instantiating the normalization theorem on `recPlain`,
whose single entry has no protocol and the bare endpoint `1.2.3.4/c2`. -/
theorem finalize_http_normalization_witness :
    (finalizeRecord recPlain).config =
      some { http := List.map fixConn [ncPlain], family := some "X", other := [] } ∧
    (fixConn ncPlain).uri = some ("http" ++ "://" ++ "1.2.3.4/c2") := by
  have h := finalize_http_normalization recPlain
    { http := [ncPlain], family := some "X", other := [] } rfl
  refine ⟨h.1, ?_⟩
  have h2 := (h.2 ncPlain (by simp)).2.2.2.1 "1.2.3.4/c2" rfl (by decide) (by decide)
  simpa [ncPlain] using h2

/-- C6: if one parser of a framework run batch raises during `run`
(`extract_config` does not return), it contributes no record and the run of
the batch equals the run of the batch with that parser removed: every
sibling parser is still processed and its record kept, and the batch is
never aborted. -/
theorem run_isolates_parser_failure (l1 l2 : Batch) (p : Candidate)
    (ms : List YaraMatch) (h : ∀ cfg, p.extract_config ≠ .ok cfg) :
    fwRun (l1 ++ (p, ms) :: l2) = fwRun (l1 ++ l2) := by
  unfold fwRun
  rw [List.foldl_append, List.foldl_append, List.foldl_cons]
  congr 1
  cases hx : p.extract_config with
  | ok cfg => exact absurd hx (h cfg)
  | typeError => simp [hx]
  | exc => simp [hx]

/-- C6 witness: in the batch `[candA, candBad, candEvil]` the failing
`candBad` drops out and both siblings' records are kept. -/
theorem run_isolates_parser_failure_witness :
    fwRun [(candA, []), (candBad, []), (candEvil, [])] =
      fwRun [(candA, []), (candEvil, [])] ∧
    fwRun [(candA, []), (candEvil, [])] =
      [("Alpha", mkCapeRecord candA [("k", "v")]),
        ("Evil", mkCapeRecord candEvil [("c2", "x")])] := by
  constructor
  · exact run_isolates_parser_failure [(candA, [])] [(candEvil, [])] candBad []
      (by intro cfg hcfg; simp [candBad, candA] at hcfg)
  · decide

theorem processFw_blocked (st : ConfigExtractor) (bl : List BlockPattern)
    (c : Candidate) (fw : String) (hb : isBlocked bl c.name = true) :
    processFw st bl c fw = (st, false) := by
  unfold processFw
  cases c.validate fw with
  | ok b =>
    cases b with
    | true => simp [hb]
    | false => rfl
  | typeError => rfl
  | exc => rfl

theorem processCand_blocked (bl : List BlockPattern) (c : Candidate)
    (hb : isBlocked bl c.name = true) (st : ConfigExtractor)
    (fws : List String) : processCand bl c st fws = st := by
  induction fws generalizing st with
  | nil => rfl
  | cons fw rest ih =>
    simp [processCand, processFw_blocked st bl c fw hb, ih]

theorem processModule_blocked_skip (bl : List BlockPattern)
    (st : ConfigExtractor) (cands1 cands2 : List Candidate) (c : Candidate)
    (hb : isBlocked bl c.name = true) :
    processModule bl st (.ok (cands1 ++ c :: cands2)) =
      processModule bl st (.ok (cands1 ++ cands2)) := by
  simp only [processModule, List.foldl_append, List.foldl_cons]
  rw [processCand_blocked bl c hb]

/-- C4: a candidate whose `__name__` matches the discovery-time blocklist is
discarded entirely: discovery with the candidate present equals discovery
with it removed, so it is never added to the registry, contributes no rule
to the aggregated ruleset and no standalone entry, and — the constructed
state being equal — is never offered to any later `run_parsers` call. -/
theorem discovery_blocked_never_registered (bl : List BlockPattern)
    (mods1 mods2 : List (ExcResult (List Candidate)))
    (cands1 cands2 : List Candidate) (c : Candidate)
    (hb : isBlocked bl c.name = true) :
    discover bl (mods1 ++ .ok (cands1 ++ c :: cands2) :: mods2) =
      discover bl (mods1 ++ .ok (cands1 ++ cands2) :: mods2) := by
  unfold discover
  rw [List.foldl_append, List.foldl_append, List.foldl_cons, List.foldl_cons,
    processModule_blocked_skip bl _ cands1 cands2 c hb]

/-- C4 witness: with blocklist `[patEvil]`, discovering `[candA, candEvil]`
equals discovering `[candA]` alone, and only `candA` is registered. -/
theorem discovery_blocked_never_registered_witness :
    discover [patEvil] [.ok [candA, candEvil]] = discover [patEvil] [.ok [candA]] ∧
    (discover [patEvil] [.ok [candA, candEvil]]).parsers = [("parsers.mod1", candA)] := by
  constructor
  · exact discovery_blocked_never_registered [patEvil] [] [] [candA] [] candEvil
      (by decide)
  · decide

/-- C7: fault containment in discovery: (1) a module whose import raises is
logged and skipped, leaving discovery over the remaining modules unchanged;
(2) a candidate whose `validate` raises (`TypeError` or any other exception)
at a framework is treated as not matching there and the loop continues with
the next adapter; (3) an exception from rule extraction on a claimed
candidate is caught at the same granularity — the candidate stays
registered, no rule and no standalone entry are added, and the loop
continues with the next adapter.  In every case discovery runs to
completion rather than aborting. -/
theorem discovery_fault_containment :
    (∀ (bl : List BlockPattern) (mods1 mods2 : List (ExcResult (List Candidate))),
      discover bl (mods1 ++ .exc :: mods2) = discover bl (mods1 ++ mods2)) ∧
    (∀ (bl : List BlockPattern) (st : ConfigExtractor) (c : Candidate)
      (fw : String) (rest : List String),
      (c.validate fw = .typeError ∨ c.validate fw = .exc) →
      processCand bl c st (fw :: rest) = processCand bl c st rest) ∧
    (∀ (bl : List BlockPattern) (st : ConfigExtractor) (c : Candidate)
      (fw : String) (rest : List String),
      c.validate fw = .ok true → isBlocked bl c.name = false →
      (c.extract_yara fw = .typeError ∨ c.extract_yara fw = .exc) →
      processCand bl c st (fw :: rest) =
        processCand bl c
          { st with parsers := insertAssoc st.parsers c.modName c } rest) := by
  refine ⟨?_, ?_, ?_⟩
  · intro bl mods1 mods2
    unfold discover
    rw [List.foldl_append, List.foldl_append, List.foldl_cons]
    rfl
  · intro bl st c fw rest h
    rcases h with h | h <;> simp [processCand, processFw, h]
  · intro bl st c fw rest hv hb h
    rcases h with h | h <;> simp [processCand, processFw, hv, hb, h]

/-- C7 witness: the three containment facts instantiated on concrete
modules and candidates (`candVExc` raises in MACO validation, `candEExc`
raises in MACO rule extraction after registration). -/
theorem discovery_fault_containment_witness :
    discover [] (.exc :: [.ok [candA]]) = discover [] [.ok [candA]] ∧
    processCand [] candVExc ⟨[], [], []⟩ fwNames =
      processCand [] candVExc ⟨[], [], []⟩ ["MWCP", "CAPE"] ∧
    processCand [] candEExc ⟨[], [], []⟩ fwNames =
      processCand [] candEExc
        ⟨insertAssoc [] candEExc.modName candEExc, [], []⟩ ["MWCP", "CAPE"] := by
  refine ⟨?_, ?_, ?_⟩
  · exact discovery_fault_containment.1 [] [] [.ok [candA]]
  · exact discovery_fault_containment.2.1 [] ⟨[], [], []⟩ candVExc "MACO"
      ["MWCP", "CAPE"] (Or.inr rfl)
  · exact discovery_fault_containment.2.2 [] ⟨[], [], []⟩ candEExc "MACO"
      ["MWCP", "CAPE"] rfl rfl (Or.inr rfl)

theorem reMatchAt_iff (r : BlockPattern) (s : List Char) :
    reMatchAt r s = true ↔ ∃ pre, pre <+: s ∧ pre ∈ r.matches' := by
  unfold reMatchAt
  rw [List.any_eq_true]
  constructor
  · rintro ⟨i, hi, hm⟩
    exact ⟨s.take i, List.take_prefix i s,
      (RegularExpression.rmatch_iff_matches' r _).1 hm⟩
  · rintro ⟨pre, hpre, hm⟩
    refine ⟨pre.length, ?_, ?_⟩
    · rw [List.mem_range]
      exact Nat.lt_succ_of_le hpre.length_le
    · rw [← List.prefix_iff_eq_take.mp hpre]
      exact (RegularExpression.rmatch_iff_matches' r pre).2 hm

theorem joinPatterns_matches (p : BlockPattern) (ps : List BlockPattern)
    (x : List Char) :
    x ∈ (joinPatterns p ps).matches' ↔ ∃ q ∈ p :: ps, x ∈ q.matches' := by
  induction ps generalizing p with
  | nil => simp [joinPatterns]
  | cons q qs ih =>
    rw [show joinPatterns p (q :: qs) = joinPatterns (p + q) qs from rfl, ih]
    constructor
    · rintro ⟨r, hr, hm⟩
      rcases List.mem_cons.mp hr with h1 | h1
      · have hm' : x ∈ (p + q).matches' := h1 ▸ hm
        rw [RegularExpression.matches'_add] at hm'
        rcases (Language.mem_add _ _ _).mp hm' with h | h
        · exact ⟨p, List.mem_cons_self _ _, h⟩
        · exact ⟨q, List.mem_cons_of_mem _ (List.mem_cons_self _ _), h⟩
      · exact ⟨r, List.mem_cons_of_mem _ (List.mem_cons_of_mem _ h1), hm⟩
    · rintro ⟨r, hr, hm⟩
      rcases List.mem_cons.mp hr with h1 | h1
      · refine ⟨p + q, List.mem_cons_self _ _, ?_⟩
        rw [RegularExpression.matches'_add]
        exact (Language.mem_add _ _ _).2 (Or.inl (h1 ▸ hm))
      · rcases List.mem_cons.mp h1 with h2 | h2
        · refine ⟨p + q, List.mem_cons_self _ _, ?_⟩
          rw [RegularExpression.matches'_add]
          exact (Language.mem_add _ _ _).2 (Or.inr (h2 ▸ hm))
        · exact ⟨r, List.mem_cons_of_mem _ h2, hm⟩

/-- C9: the blocklist check — the same `isBlocked` is used by `processFw`
at discovery time and by `addMatches` / `addStandalones` at dispatch time —
joins the patterns with `|` and runs an anchored `.match` against the
candidate's `__name__` (`Candidate.name`, the short member name; never
`modName`, the registry identity): it blocks exactly when some individual
pattern accepts some *prefix* of that name.  The characterization mentions
neither `modName` nor non-prefix occurrences, so a pattern matching only in
the interior of the short name, or only the module path, excludes nothing. -/
theorem blocklist_anchored_short_name (bl : List BlockPattern)
    (c : Candidate) :
    isBlocked bl c.name = true ↔
      bl ≠ [] ∧ ∃ q ∈ bl, ∃ pre, pre <+: c.name.data ∧ pre ∈ q.matches' := by
  cases bl with
  | nil => simp [isBlocked]
  | cons p ps =>
    simp only [isBlocked]
    rw [reMatchAt_iff]
    constructor
    · rintro ⟨pre, hpre, hm⟩
      refine ⟨by simp, ?_⟩
      rcases (joinPatterns_matches p ps pre).1 hm with ⟨q, hq, hqm⟩
      exact ⟨q, hq, pre, hpre, hqm⟩
    · rintro ⟨-, q, hq, pre, hpre, hm⟩
      exact ⟨pre, hpre, (joinPatterns_matches p ps pre).2 ⟨q, hq, hm⟩⟩

theorem addMatches_error (reg : List (String × Candidate))
    (bl : List BlockPattern) (bs : Batches) (yms : List YaraMatch)
    (h : ∃ m ∈ yms, lookupA reg m.parser_module = none) :
    ∃ s, addMatches reg bl bs yms = .error (.unknownParserModule s) := by
  induction yms generalizing bs with
  | nil => rcases h with ⟨m, hm, _⟩; cases hm
  | cons m rest ih =>
    cases hcase : lookupA reg m.parser_module with
    | none => exact ⟨m.parser_module, by simp [addMatches, hcase]⟩
    | some p =>
      have hex : ∃ m' ∈ rest, lookupA reg m'.parser_module = none := by
        rcases h with ⟨m', hm', hl⟩
        rcases List.mem_cons.mp hm' with rfl | hm'
        · rw [hcase] at hl; cases hl
        · exact ⟨m', hm', hl⟩
      by_cases hb : isBlocked bl p.name = true
      · obtain ⟨s, hs⟩ := ih bs hex
        exact ⟨s, by simp [addMatches, hcase, hb, hs]⟩
      · obtain ⟨s, hs⟩ := ih (addMatchTo bs m.parser_framework p [m]) hex
        exact ⟨s, by simp [addMatches, hcase, hb, hs]⟩

theorem addMatches_ok (reg : List (String × Candidate))
    (bl : List BlockPattern) (bs : Batches) (yms : List YaraMatch)
    (h : ∀ m ∈ yms, ∃ p, lookupA reg m.parser_module = some p) :
    ∃ bs', addMatches reg bl bs yms = .ok bs' := by
  induction yms generalizing bs with
  | nil => exact ⟨bs, rfl⟩
  | cons m rest ih =>
    obtain ⟨p, hp⟩ := h m (by simp)
    have h' : ∀ m' ∈ rest, ∃ p', lookupA reg m'.parser_module = some p' :=
      fun m' hm' => h m' (by simp [hm'])
    by_cases hb : isBlocked bl p.name = true
    · obtain ⟨bs', hbs⟩ := ih bs h'
      exact ⟨bs', by simp [addMatches, hp, hb, hbs]⟩
    · obtain ⟨bs', hbs⟩ := ih (addMatchTo bs m.parser_framework p [m]) h'
      exact ⟨bs', by simp [addMatches, hp, hb, hbs]⟩

theorem runFrameworks_no_module_error (acc : ResultMap) (bs : Batches)
    (s : String) : runFrameworks acc bs ≠ .error (.unknownParserModule s) := by
  induction bs generalizing acc with
  | nil => simp [runFrameworks]
  | cons hd rest ih =>
    rcases hd with ⟨fw, plist⟩
    by_cases h1 : plist = []
    · simpa [runFrameworks, h1] using ih acc
    · by_cases h2 : fwKnown fw = true
      · simpa [runFrameworks, h1, h2] using ih _
      · simp [runFrameworks, h1, h2]

/-- C10: `run_parsers` resolves each match's `parser_module` metadata by an
unguarded `self.parsers[...]` lookup before any blocklist check: if some
match's `parser_module` is not a registry key, the whole call raises the
lookup error and returns no partial result; if every match's module
resolves (every compiled rule came from a registered parser), that error
branch is unreachable for the call. -/
theorem run_parsers_unguarded_lookup (cx : ConfigExtractor)
    (yms : List YaraMatch) (bl : List BlockPattern) :
    ((∃ m ∈ yms, lookupA cx.parsers m.parser_module = none) →
      ∃ s, runParsers cx yms bl = .error (.unknownParserModule s)) ∧
    ((∀ m ∈ yms, ∃ p, lookupA cx.parsers m.parser_module = some p) →
      ∀ s, runParsers cx yms bl ≠ .error (.unknownParserModule s)) := by
  constructor
  · intro h
    obtain ⟨s, hs⟩ := addMatches_error cx.parsers bl [] yms h
    exact ⟨s, by simp [runParsers, buildBatches, hs]⟩
  · intro h s
    obtain ⟨bs', hbs⟩ := addMatches_ok cx.parsers bl [] yms h
    simp only [runParsers, buildBatches, hbs]
    exact runFrameworks_no_module_error _ _ s

/-- C10 witness: on `cxTwo`, a match with unknown `parser_module` aborts the
call with the lookup error; with resolvable matches that error cannot
occur. -/
theorem run_parsers_unguarded_lookup_witness :
    (∃ s, runParsers cxTwo [ymBad] [] = .error (.unknownParserModule s)) ∧
    (∀ s, runParsers cxTwo [ymA, ymEvil] [] ≠ .error (.unknownParserModule s)) := by
  constructor
  · exact (run_parsers_unguarded_lookup cxTwo [ymBad] []).1 ⟨ymBad, by simp, by decide⟩
  · intro s
    refine (run_parsers_unguarded_lookup cxTwo [ymA, ymEvil] []).2 ?_ s
    intro m hm
    rcases List.mem_cons.mp hm with rfl | hm
    · exact ⟨candA, by decide⟩
    · rcases List.mem_cons.mp hm with rfl | hm
      · exact ⟨candEvil, by decide⟩
      · cases hm

theorem mem_keys_addToBatch (b : Batch) (q p : Candidate)
    (ms : List YaraMatch) :
    p ∈ (addToBatch b q ms).map Prod.fst ↔ p = q ∨ p ∈ b.map Prod.fst := by
  induction b with
  | nil => simp [addToBatch]
  | cons hd rest ih =>
    rcases hd with ⟨q', l⟩
    by_cases h : q' = q
    · subst h
      simp [addToBatch]
    · simp only [addToBatch, if_neg h, List.map_cons, List.mem_cons, ih]
      tauto

theorem inBatches_cons (fw : String) (b : Batch) (bs : Batches)
    (p : Candidate) :
    inBatches ((fw, b) :: bs) p ↔ inBatch b p ∨ inBatches bs p := by
  constructor
  · rintro ⟨fw', b', hmem, hin⟩
    rcases List.mem_cons.mp hmem with h1 | h1
    · left; cases h1; exact hin
    · right; exact ⟨fw', b', h1, hin⟩
  · rintro (h | ⟨fw', b', hmem, hin⟩)
    · exact ⟨fw, b, List.mem_cons_self _ _, h⟩
    · exact ⟨fw', b', List.mem_cons_of_mem _ hmem, hin⟩

theorem inBatches_addMatchTo (bs : Batches) (fw : String) (q p : Candidate)
    (ms : List YaraMatch) :
    inBatches (addMatchTo bs fw q ms) p ↔ p = q ∨ inBatches bs p := by
  induction bs with
  | nil =>
    rw [show addMatchTo [] fw q ms = [(fw, addToBatch [] q ms)] from rfl,
      inBatches_cons]
    simp only [inBatch, mem_keys_addToBatch]
    simp [inBatches]
  | cons hd rest ih =>
    rcases hd with ⟨fw', b⟩
    by_cases h : fw' = fw
    · subst h
      rw [show addMatchTo ((fw', b) :: rest) fw' q ms =
          (fw', addToBatch b q ms) :: rest from by simp [addMatchTo]]
      rw [inBatches_cons, inBatches_cons]
      simp only [inBatch, mem_keys_addToBatch]
      tauto
    · rw [show addMatchTo ((fw', b) :: rest) fw q ms =
          (fw', b) :: addMatchTo rest fw q ms from by simp [addMatchTo, h]]
      rw [inBatches_cons, inBatches_cons, ih]
      tauto

theorem addMatches_blocked_not_added (reg : List (String × Candidate))
    (bl : List BlockPattern) (p : Candidate)
    (hb : isBlocked bl p.name = true) :
    ∀ (yms : List YaraMatch) (bs bs' : Batches),
      addMatches reg bl bs yms = .ok bs' → ¬ inBatches bs p →
      ¬ inBatches bs' p := by
  intro yms
  induction yms with
  | nil =>
    intro bs bs' h hn
    simp only [addMatches] at h
    injection h with h
    subst h
    exact hn
  | cons m rest ih =>
    intro bs bs' h hn
    cases hcase : lookupA reg m.parser_module with
    | none => simp only [addMatches, hcase] at h; simp at h
    | some q =>
      simp only [addMatches, hcase] at h
      by_cases hq : isBlocked bl q.name = true
      · rw [if_pos hq] at h
        exact ih bs bs' h hn
      · rw [if_neg hq] at h
        refine ih _ bs' h ?_
        intro hmem
        rcases (inBatches_addMatchTo bs m.parser_framework q p [m]).1 hmem with h1 | h1
        · rw [h1] at hb; exact hq hb
        · exact hn h1

theorem addMatches_mono (reg : List (String × Candidate))
    (bl : List BlockPattern) (p : Candidate) :
    ∀ (yms : List YaraMatch) (bs bs' : Batches),
      addMatches reg bl bs yms = .ok bs' → inBatches bs p →
      inBatches bs' p := by
  intro yms
  induction yms with
  | nil =>
    intro bs bs' h hmem
    simp only [addMatches] at h
    injection h with h
    subst h
    exact hmem
  | cons m rest ih =>
    intro bs bs' h hmem
    cases hcase : lookupA reg m.parser_module with
    | none => simp only [addMatches, hcase] at h; simp at h
    | some q =>
      simp only [addMatches, hcase] at h
      by_cases hq : isBlocked bl q.name = true
      · rw [if_pos hq] at h
        exact ih bs bs' h hmem
      · rw [if_neg hq] at h
        exact ih _ bs' h
          ((inBatches_addMatchTo bs m.parser_framework q p [m]).2 (Or.inr hmem))

theorem addMatches_adds (reg : List (String × Candidate))
    (bl : List BlockPattern) (p : Candidate)
    (hp : isBlocked bl p.name = false) :
    ∀ (yms : List YaraMatch) (bs bs' : Batches) (m : YaraMatch), m ∈ yms →
      lookupA reg m.parser_module = some p →
      addMatches reg bl bs yms = .ok bs' → inBatches bs' p := by
  intro yms
  induction yms with
  | nil => intro bs bs' m hm; cases hm
  | cons m0 rest ih =>
    intro bs bs' m hm hlook h
    rcases List.mem_cons.mp hm with h1 | h1
    · subst h1
      simp only [addMatches, hlook] at h
      rw [if_neg (by simp [hp])] at h
      exact addMatches_mono reg bl p rest _ bs' h
        ((inBatches_addMatchTo bs m.parser_framework p p [m]).2 (Or.inl rfl))
    · cases hcase : lookupA reg m0.parser_module with
      | none => simp only [addMatches, hcase] at h; simp at h
      | some q =>
        simp only [addMatches, hcase] at h
        by_cases hq : isBlocked bl q.name = true
        · rw [if_pos hq] at h
          exact ih bs bs' m h1 hlook h
        · rw [if_neg hq] at h
          exact ih _ bs' m h1 hlook h

theorem standalone_foldl_not_added (bl : List BlockPattern) (fw : String)
    (p : Candidate) (hb : isBlocked bl p.name = true)
    (plist : List Candidate) :
    ∀ bs : Batches, ¬ inBatches bs p →
      ¬ inBatches (plist.foldl
        (fun b q => if isBlocked bl q.name then b else addMatchTo b fw q []) bs)
        p := by
  induction plist with
  | nil => intro bs hn; exact hn
  | cons q rest ih =>
    intro bs hn
    rw [List.foldl_cons]
    by_cases hq : isBlocked bl q.name = true
    · refine ih _ ?_
      simpa [hq] using hn
    · refine ih _ ?_
      rw [if_neg hq]
      intro hmem
      rcases (inBatches_addMatchTo bs fw q p []).1 hmem with h1 | h1
      · rw [h1] at hb; exact hq hb
      · exact hn h1

theorem standalone_foldl_mono (bl : List BlockPattern) (fw : String)
    (p : Candidate) (plist : List Candidate) :
    ∀ bs : Batches, inBatches bs p →
      inBatches (plist.foldl
        (fun b q => if isBlocked bl q.name then b else addMatchTo b fw q []) bs)
        p := by
  induction plist with
  | nil => intro bs h; exact h
  | cons q rest ih =>
    intro bs h
    rw [List.foldl_cons]
    by_cases hq : isBlocked bl q.name = true
    · refine ih _ ?_
      simpa [hq] using h
    · refine ih _ ?_
      rw [if_neg hq]
      exact (inBatches_addMatchTo bs fw q p []).2 (Or.inr h)

theorem addStandalones_not_added (bl : List BlockPattern) (p : Candidate)
    (hb : isBlocked bl p.name = true) :
    ∀ (sp : List (String × List Candidate)) (bs : Batches),
      ¬ inBatches bs p → ¬ inBatches (addStandalones bl bs sp) p := by
  intro sp
  induction sp with
  | nil => intro bs hn; exact hn
  | cons hd rest ih =>
    rcases hd with ⟨fw, plist⟩
    intro bs hn
    simp only [addStandalones]
    exact ih _ (standalone_foldl_not_added bl fw p hb plist bs hn)

theorem addStandalones_mono (bl : List BlockPattern) (p : Candidate) :
    ∀ (sp : List (String × List Candidate)) (bs : Batches),
      inBatches bs p → inBatches (addStandalones bl bs sp) p := by
  intro sp
  induction sp with
  | nil => intro bs h; exact h
  | cons hd rest ih =>
    rcases hd with ⟨fw, plist⟩
    intro bs h
    simp only [addStandalones]
    exact ih _ (standalone_foldl_mono bl fw p plist bs h)

/-- C8: a parser whose `__name__` matches only a per-call blocklist is
excluded from that call's run batches — it receives no invocation and
contributes no record — while `run_parsers` never writes the constructed
state (`runParsersSt` returns the pre-state unchanged), so a subsequent
call on the same extractor without the blocklist puts the parser back in
its framework's batch and runs it normally.  The parser is reachable via a
YARA match of the sample resolving to it through the unchanged registry. -/
theorem runtime_blocklist_per_call (cx : ConfigExtractor)
    (yms : List YaraMatch) (bl : List BlockPattern) (p : Candidate)
    (hb : isBlocked bl p.name = true)
    (m : YaraMatch) (hm : m ∈ yms)
    (hlook : lookupA cx.parsers m.parser_module = some p)
    (bs1 bs0 : Batches)
    (h1 : buildBatches cx yms bl = .ok bs1)
    (h0 : buildBatches cx yms [] = .ok bs0) :
    (runParsersSt cx yms bl).1 = cx ∧ ¬ inBatches bs1 p ∧ inBatches bs0 p := by
  refine ⟨rfl, ?_, ?_⟩
  · cases hadd : addMatches cx.parsers bl [] yms with
    | error e => simp [buildBatches, hadd] at h1
    | ok bsa =>
      simp only [buildBatches, hadd] at h1
      injection h1 with h1
      subst h1
      exact addStandalones_not_added bl p hb cx.standalone_parsers bsa
        (addMatches_blocked_not_added cx.parsers bl p hb yms [] bsa hadd
          (by simp [inBatches]))
  · cases hadd : addMatches cx.parsers [] [] yms with
    | error e => simp [buildBatches, hadd] at h0
    | ok bsb =>
      simp only [buildBatches, hadd] at h0
      injection h0 with h0
      subst h0
      exact addStandalones_mono [] p cx.standalone_parsers bsb
        (addMatches_adds cx.parsers [] p rfl yms [] bsb m hm hlook hadd)

/-- C8 witness: on `cxTwo`, with matches for both parsers and the blocklist
`[patEvil]`, `candEvil` is absent from the blocked call's batches and
present in the unblocked call's batches. -/
theorem runtime_blocklist_per_call_witness :
    (runParsersSt cxTwo [ymA, ymEvil] [patEvil]).1 = cxTwo ∧
    ¬ inBatches [("MACO", [(candA, [ymA])])] candEvil ∧
    inBatches [("MACO", [(candA, [ymA])]), ("CAPE", [(candEvil, [ymEvil])])]
      candEvil := by
  exact runtime_blocklist_per_call cxTwo [ymA, ymEvil] [patEvil] candEvil
    (by decide) ymEvil (by simp) (by decide) _ _ rfl rfl

theorem mem_insertAssoc {α : Type} (l : List (String × α)) (k : String)
    (v : α) (x : String × α) (h : x ∈ insertAssoc l k v) :
    x = (k, v) ∨ x ∈ l := by
  induction l with
  | nil => simpa [insertAssoc] using h
  | cons hd rest ih =>
    rcases hd with ⟨k', v'⟩
    by_cases hk : k' = k
    · subst hk
      simp only [insertAssoc, if_pos rfl] at h
      rcases List.mem_cons.mp h with h1 | h1
      · exact Or.inl h1
      · exact Or.inr (List.mem_cons_of_mem _ h1)
    · simp only [insertAssoc, if_neg hk] at h
      rcases List.mem_cons.mp h with h1 | h1
      · exact Or.inr (by simp [h1])
      · rcases ih h1 with h2 | h2
        · exact Or.inl h2
        · exact Or.inr (List.mem_cons_of_mem _ h2)

theorem runFrameworks_mem (bs : Batches) :
    ∀ (acc res : ResultMap) (fw : String)
      (fwres : List (String × ResultRecord)),
      runFrameworks acc bs = .ok res → (fw, fwres) ∈ res →
      (fw, fwres) ∈ acc ∨
        ∃ plist, (fw, plist) ∈ bs ∧ fwres = finalize (fwRun plist) ∧
          finalize (fwRun plist) ≠ [] := by
  induction bs with
  | nil =>
    intro acc res fw fwres h hmem
    simp only [runFrameworks] at h
    injection h with h
    subst h
    exact Or.inl hmem
  | cons hd rest ih =>
    intro acc res fw fwres h hmem
    rcases hd with ⟨fw', plist⟩
    by_cases h1 : plist = []
    · simp only [runFrameworks, if_pos h1] at h
      rcases ih acc res fw fwres h hmem with h2 | ⟨pl, hpl, hv, hne⟩
      · exact Or.inl h2
      · exact Or.inr ⟨pl, List.mem_cons_of_mem _ hpl, hv, hne⟩
    · by_cases h2 : fwKnown fw' = true
      · simp only [runFrameworks, if_neg h1, if_pos h2] at h
        by_cases h3 : finalize (fwRun plist) = []
        · rw [if_pos h3] at h
          rcases ih acc res fw fwres h hmem with h4 | ⟨pl, hpl, hv, hne⟩
          · exact Or.inl h4
          · exact Or.inr ⟨pl, List.mem_cons_of_mem _ hpl, hv, hne⟩
        · rw [if_neg h3] at h
          rcases ih _ res fw fwres h hmem with h4 | ⟨pl, hpl, hv, hne⟩
          · rcases mem_insertAssoc acc fw' (finalize (fwRun plist)) _ h4 with h5 | h5
            · cases h5
              exact Or.inr ⟨plist, List.mem_cons_self _ _, rfl, h3⟩
            · exact Or.inl h5
          · exact Or.inr ⟨pl, List.mem_cons_of_mem _ hpl, hv, hne⟩
      · simp only [runFrameworks, if_neg h1, if_neg h2] at h
        simp at h

theorem foldl_id_of_step_id {α β : Type} (f : α → β → α) (l : List β)
    (h : ∀ acc, ∀ b ∈ l, f acc b = acc) : ∀ acc, l.foldl f acc = acc := by
  induction l with
  | nil => intro acc; rfl
  | cons b rest ih =>
    intro acc
    rw [List.foldl_cons, h acc b (by simp)]
    exact ih (fun acc' b' hb' => h acc' b' (by simp [hb'])) acc

theorem fwRun_eq_nil_of_all_bad (plist : Batch)
    (h : ∀ pm ∈ plist, ∀ cfg, pm.1.extract_config = .ok cfg → cfg = []) :
    fwRun plist = [] := by
  unfold fwRun
  refine foldl_id_of_step_id _ plist ?_ []
  intro acc pm hpm
  cases hx : pm.1.extract_config with
  | ok cfg =>
    simp only [hx]
    rw [if_pos (h pm hpm cfg hx)]
  | typeError => simp [hx]
  | exc => simp [hx]

theorem fwRun_ne_nil_exists (plist : Batch) (h : fwRun plist ≠ []) :
    ∃ pm ∈ plist, ∃ cfg, pm.1.extract_config = .ok cfg ∧ cfg ≠ [] := by
  by_contra hc
  push_neg at hc
  exact h (fwRun_eq_nil_of_all_bad plist hc)

/-- C3: a framework name is a key of a successful `run_parsers` result only
if its run batch is non-empty and contains a parser whose `extract_config`
returned truthy (non-empty) output: a framework with an empty batch or
whose run produced an empty record mapping contributes no key. -/
theorem result_key_needs_output (cx : ConfigExtractor) (yms : List YaraMatch)
    (bl : List BlockPattern) (res : ResultMap)
    (hrun : runParsers cx yms bl = .ok res) (fw : String)
    (fwres : List (String × ResultRecord)) (hmem : (fw, fwres) ∈ res) :
    ∃ bs, buildBatches cx yms bl = .ok bs ∧
      ∃ plist, (fw, plist) ∈ bs ∧ plist ≠ [] ∧
        ∃ p ms, (p, ms) ∈ plist ∧
          ∃ cfg, p.extract_config = .ok cfg ∧ cfg ≠ [] := by
  cases hb : buildBatches cx yms bl with
  | error e => simp [runParsers, hb] at hrun
  | ok bs =>
    simp only [runParsers, hb] at hrun
    rcases runFrameworks_mem bs [] res fw fwres hrun hmem with h | ⟨plist, hpl, hv, hne⟩
    · simp at h
    · have hfw : fwRun plist ≠ [] := by
        intro hnil
        exact hne (by rw [hnil]; rfl)
      obtain ⟨pm, hpm, cfg, hcfg, hcne⟩ := fwRun_ne_nil_exists plist hfw
      refine ⟨bs, rfl, plist, hpl, List.ne_nil_of_mem hpm, pm.1, pm.2, ?_,
        cfg, hcfg, hcne⟩
      simpa using hpm

/-- C3 witness: on `cxTwo` with the single match `ymA`, the result has the
key `MACO` and the theorem produces the batch parser `candA` with its
truthy output. -/
theorem result_key_needs_output_witness :
    ∃ bs, buildBatches cxTwo [ymA] [] = .ok bs ∧
      ∃ plist, ("MACO", plist) ∈ bs ∧ plist ≠ [] ∧
        ∃ p ms, (p, ms) ∈ plist ∧
          ∃ cfg, p.extract_config = .ok cfg ∧ cfg ≠ [] :=
  result_key_needs_output cxTwo [ymA] []
    [("MACO", finalize (fwRun [(candA, [ymA])]))] rfl "MACO"
    (finalize (fwRun [(candA, [ymA])])) (by simp)

theorem insertAssoc_idem {α : Type} (l : List (String × α)) (k : String)
    (v : α) : insertAssoc (insertAssoc l k v) k v = insertAssoc l k v := by
  induction l with
  | nil => simp [insertAssoc]
  | cons hd rest ih =>
    rcases hd with ⟨k', v'⟩
    by_cases h : k' = k
    · subst h; simp [insertAssoc]
    · simp [insertAssoc, h, ih]

theorem processCand_parsers (bl : List BlockPattern) (c : Candidate) :
    ∀ (fws : List String) (st : ConfigExtractor),
      (processCand bl c st fws).parsers =
        if registersIn bl c fws then insertAssoc st.parsers c.modName c
        else st.parsers := by
  intro fws
  induction fws with
  | nil => intro st; simp [processCand, registersIn]
  | cons fw rest ih =>
    intro st
    cases hv : c.validate fw with
    | ok b =>
      cases b with
      | false =>
        simp only [processCand, processFw, hv, registersIn]
        exact ih st
      | true =>
        by_cases hb : isBlocked bl c.name = true
        · simp only [processCand, processFw, hv, hb, if_true, registersIn]
          simpa using ih st
        · rw [Bool.not_eq_true] at hb
          cases he : c.extract_yara fw with
          | ok rules =>
            by_cases hr : rules = []
            · simp [processCand, processFw, hv, hb, he, hr, registersIn]
            · simp [processCand, processFw, hv, hb, he, hr, registersIn]
          | typeError =>
            simp only [processCand, processFw, hv, hb, he, registersIn,
              Bool.false_eq_true, if_false]
            rw [ih]
            by_cases hreg : registersIn bl c rest = true
            · simp [hreg, insertAssoc_idem]
            · simp [hreg]
          | exc =>
            simp only [processCand, processFw, hv, hb, he, registersIn,
              Bool.false_eq_true, if_false]
            rw [ih]
            by_cases hreg : registersIn bl c rest = true
            · simp [hreg, insertAssoc_idem]
            · simp [hreg]
    | typeError =>
      simp only [processCand, processFw, hv, registersIn]
      exact ih st
    | exc =>
      simp only [processCand, processFw, hv, registersIn]
      exact ih st

theorem foldl_cands_parsers (bl : List BlockPattern) :
    ∀ (cands : List Candidate) (st : ConfigExtractor),
      (cands.foldl (fun s c => processCand bl c s fwNames) st).parsers =
        (cands.filter (fun c => registersIn bl c fwNames)).foldl
          (fun ps c => insertAssoc ps c.modName c) st.parsers := by
  intro cands
  induction cands with
  | nil => intro st; rfl
  | cons c rest ih =>
    intro st
    rw [List.foldl_cons]
    by_cases h : registersIn bl c fwNames = true
    · rw [ih, List.filter_cons_of_pos (by simpa using h), List.foldl_cons]
      congr 1
      rw [processCand_parsers, if_pos h]
    · rw [ih, List.filter_cons_of_neg (by simpa using h)]
      congr 1
      rw [processCand_parsers, if_neg h]

theorem foldl_mods_parsers (bl : List BlockPattern) :
    ∀ (mods : List (ExcResult (List Candidate))) (st : ConfigExtractor),
      (mods.foldl (processModule bl) st).parsers =
        ((moduleCandidates mods).filter
          (fun c => registersIn bl c fwNames)).foldl
          (fun ps c => insertAssoc ps c.modName c) st.parsers := by
  intro mods
  induction mods with
  | nil => intro st; rfl
  | cons m rest ih =>
    intro st
    rw [List.foldl_cons]
    cases m with
    | ok cands =>
      rw [ih, show processModule bl st (.ok cands) =
        cands.foldl (fun s c => processCand bl c s fwNames) st from rfl,
        foldl_cands_parsers,
        show moduleCandidates (.ok cands :: rest) =
          cands ++ moduleCandidates rest from rfl,
        List.filter_append, List.foldl_append]
    | typeError => rw [ih]; rfl
    | exc => rw [ih]; rfl

theorem keys_insertAssoc {α : Type} (l : List (String × α)) (k : String)
    (v : α) :
    (insertAssoc l k v).map Prod.fst =
      if k ∈ l.map Prod.fst then l.map Prod.fst
      else l.map Prod.fst ++ [k] := by
  induction l with
  | nil => simp [insertAssoc]
  | cons hd rest ih =>
    rcases hd with ⟨k', v'⟩
    by_cases h : k' = k
    · subst h; simp [insertAssoc]
    · simp only [insertAssoc, if_neg h, List.map_cons, ih]
      by_cases h2 : k ∈ rest.map Prod.fst
      · simp [h2, Ne.symm h]
      · simp [h2, Ne.symm h]

theorem foldl_insert_nodup_mem (cands : List Candidate) :
    ∀ ps : List (String × Candidate), (ps.map Prod.fst).Nodup →
      ((cands.foldl (fun a c => insertAssoc a c.modName c) ps).map
        Prod.fst).Nodup ∧
      ∀ k, k ∈ (cands.foldl (fun a c => insertAssoc a c.modName c) ps).map
          Prod.fst ↔
        k ∈ ps.map Prod.fst ∨ k ∈ cands.map Candidate.modName := by
  induction cands with
  | nil => intro ps h; exact ⟨h, by simp⟩
  | cons c rest ih =>
    intro ps h
    rw [List.foldl_cons]
    have hkeys := keys_insertAssoc ps c.modName c
    have hnd : ((insertAssoc ps c.modName c).map Prod.fst).Nodup := by
      rw [hkeys]
      by_cases h2 : c.modName ∈ ps.map Prod.fst
      · simpa [h2] using h
      · rw [if_neg h2]
        exact h.append (List.nodup_singleton _) (List.disjoint_singleton.2 h2)
    obtain ⟨hnd', hmem'⟩ := ih (insertAssoc ps c.modName c) hnd
    refine ⟨hnd', ?_⟩
    intro k
    rw [hmem' k, hkeys]
    by_cases h2 : c.modName ∈ ps.map Prod.fst
    · rw [if_pos h2]
      simp only [List.map_cons, List.mem_cons]
      constructor
      · rintro (hk | hk)
        · exact Or.inl hk
        · exact Or.inr (Or.inr hk)
      · rintro (hk | hk | hk)
        · exact Or.inl hk
        · exact Or.inl (hk ▸ h2)
        · exact Or.inr hk
    · rw [if_neg h2]
      simp only [List.mem_append, List.mem_singleton, List.map_cons,
        List.mem_cons]
      tauto

theorem discover_parsers (bl : List BlockPattern)
    (mods : List (ExcResult (List Candidate))) :
    (discover bl mods).parsers =
      (claimedCandidates bl mods).foldl
        (fun ps c => insertAssoc ps c.modName c) [] := by
  unfold discover claimedCandidates
  rw [foldl_mods_parsers]

/-- C1 (amended): the registry key is `member.__module__` alone, so after
discovery the registry has exactly one entry per distinct *module* among
the claimed candidates: its size equals the number of distinct `modName`
values of the claimed candidates, and a key is present exactly when some
claimed candidate has that module path.  When one loaded module defines
several claimed candidates they share a single entry (the last registered
wins), so the size does not in general equal the number of distinct
claimed candidates. -/
theorem registry_one_entry_per_module (bl : List BlockPattern)
    (mods : List (ExcResult (List Candidate))) :
    (discover bl mods).parsers.length =
      ((claimedCandidates bl mods).map Candidate.modName).dedup.length ∧
    ∀ k, (∃ v, (k, v) ∈ (discover bl mods).parsers) ↔
      ∃ c ∈ claimedCandidates bl mods, c.modName = k := by
  obtain ⟨hnd, hmem⟩ :=
    foldl_insert_nodup_mem (claimedCandidates bl mods) [] (by simp)
  constructor
  · have hperm : List.Perm
        (((claimedCandidates bl mods).foldl
          (fun a c => insertAssoc a c.modName c) []).map Prod.fst)
        (((claimedCandidates bl mods).map Candidate.modName).dedup) := by
      refine (List.perm_ext_iff_of_nodup hnd (List.nodup_dedup _)).2 ?_
      intro k
      rw [hmem k, List.mem_dedup]
      simp
    have hlen := hperm.length_eq
    rw [List.length_map] at hlen
    rw [discover_parsers]
    exact hlen
  · intro k
    rw [discover_parsers]
    constructor
    · rintro ⟨v, hv⟩
      have hk : k ∈ ((claimedCandidates bl mods).foldl
          (fun a c => insertAssoc a c.modName c) []).map Prod.fst :=
        List.mem_map.2 ⟨(k, v), hv, rfl⟩
      rw [hmem k] at hk
      rcases hk with hk | hk
      · simp at hk
      · rcases List.mem_map.1 hk with ⟨c, hc, hck⟩
        exact ⟨c, hc, hck⟩
    · rintro ⟨c, hc, hck⟩
      have hk : k ∈ (claimedCandidates bl mods).map Candidate.modName :=
        List.mem_map.2 ⟨c, hc, hck⟩
      have hk2 := (hmem k).2 (Or.inr hk)
      rcases List.mem_map.1 hk2 with ⟨⟨k', v⟩, hkv, hfst⟩
      exact ⟨v, by rwa [show k' = k from hfst] at hkv⟩

/-- C1 counterexample: `candA` and `candB` are distinct claimed, unblocked
candidates defined in the same module `parsers.mod1`; discovery registers
both under the single key `parsers.mod1` (the later `candB` overwriting
`candA`), so the registry has one entry while there are two distinct
claimed candidates: its size does not equal the number of distinct claimed
candidates. -/
theorem registry_collision_cex :
    (discover [] [.ok [candA, candB]]).parsers = [("parsers.mod1", candB)] ∧
    candA ≠ candB ∧
    claimedCandidates [] [.ok [candA, candB]] = [candA, candB] ∧
    (discover [] [.ok [candA, candB]]).parsers.length = 1 := by
  refine ⟨by decide, by decide, by decide, by decide⟩

/-- C1 witness: the amended size law evaluated on the two-in-one-module
discovery input. -/
theorem registry_one_entry_per_module_witness :
    (discover [] [.ok [candA, candB]]).parsers.length =
      ((claimedCandidates [] [.ok [candA, candB]]).map
        Candidate.modName).dedup.length :=
  (registry_one_entry_per_module [] [.ok [candA, candB]]).1

/-- C9 witness: the anchored-prefix characterization evaluated on `candEvil`
and the pattern `patEvil`. -/
theorem blocklist_anchored_short_name_witness :
    isBlocked [patEvil] candEvil.name = true ↔
      [patEvil] ≠ [] ∧ ∃ q ∈ [patEvil], ∃ pre, pre <+: candEvil.name.data ∧
        pre ∈ q.matches' :=
  blocklist_anchored_short_name [patEvil] candEvil
